import Mathlib

/-! Verification of the Peroxide dense-matrix linear-algebra engine.

A shallow embedding of the matrix decomposition and linear-solve engine of
the `peroxide` crate.  The repository excerpt exposes the crate root
(`src/lib.rs`, documentation plus module and `extern crate` declarations) and
the build script (`build.rs`); the matrix module itself is not part of the
excerpt, so the numerical algorithms (LU with partial pivoting, forward/back
substitution, determinant, inverse, RREF, Cholesky) are modelled from the
specification's own algorithm descriptions.  Scalars are modelled by exact
rationals `ℚ`; under exact arithmetic the spec's fixed numerical tolerance
degenerates to an exact zero test, and the floating-point "≈ within
tolerance" statements become exact equalities.
-/

namespace Peroxide

/-- Modelled from the spec (§7 "Error kinds"): the engine's typed error
values.  The matrix module is absent from the source excerpt, so the error
enumeration follows the spec's list.  `BackendUnavailable` carries the name
of the missing capability. -/
inductive Err where
  | ShapeMismatch : Err
  | DimensionMismatch : Err
  | IndexOutOfBounds : Err
  | NotSquare : Err
  | SingularMatrix : Err
  | NotPositiveDefinite : Err
  | DivisionByZero : Err
  | BackendUnavailable : String → Err
deriving DecidableEq, Repr

/-- Modelled from the spec (§4.3, §4.6, §7 "fixed numerical tolerance"): the
engine's single numerical-degeneracy test.  In exact rational arithmetic the
fixed floating-point tolerance degenerates to an exact zero test. -/
def isNegligible (x : ℚ) : Bool := x == 0

theorem isNegligible_iff (x : ℚ) : isNegligible x = true ↔ x = 0 := by
  simp [isNegligible]

/-- Modelled from the spec (§4.3 "select the row with maximum absolute value
in that column among remaining rows"): the index of a row of maximal
absolute value. -/
def pivotIdx {n : ℕ} (v : Fin (n + 1) → ℚ) : Fin (n + 1) :=
  (List.argmax (fun i => |v i|) (List.finRange (n + 1))).getD 0

theorem pivotIdx_isMax {n : ℕ} (v : Fin (n + 1) → ℚ) (i : Fin (n + 1)) :
    |v i| ≤ |v (pivotIdx v)| := by
  unfold pivotIdx
  rcases h : List.argmax (fun i => |v i|) (List.finRange (n + 1)) with _ | m
  · exact absurd (List.argmax_eq_none.mp h) (by simp [List.finRange])
  · have hm : m ∈ List.argmax (fun i => |v i|) (List.finRange (n + 1)) := by
      rw [h]; exact Option.mem_some_self m
    simpa using List.le_of_mem_argmax (List.mem_finRange i) hm

/-- Extends a permutation of `Fin n` to one of `Fin (n+1)` fixing `0` and
acting on successors. -/
def succExt {n : ℕ} (σ : Equiv.Perm (Fin n)) : Equiv.Perm (Fin (n + 1)) where
  toFun := Fin.cases 0 (fun i => (σ i).succ)
  invFun := Fin.cases 0 (fun i => (σ.symm i).succ)
  left_inv := by
    intro i
    refine Fin.cases ?_ (fun j => ?_) i <;> simp
  right_inv := by
    intro i
    refine Fin.cases ?_ (fun j => ?_) i <;> simp

@[simp] theorem succExt_zero {n : ℕ} (σ : Equiv.Perm (Fin n)) :
    succExt σ 0 = 0 := rfl

@[simp] theorem succExt_succ {n : ℕ} (σ : Equiv.Perm (Fin n)) (i : Fin n) :
    succExt σ i.succ = (σ i).succ := by
  simp [succExt]

theorem succExt_eq_decomposeFin {n : ℕ} (σ : Equiv.Perm (Fin n)) (r : Fin (n + 1)) :
    Equiv.swap 0 r * succExt σ = Equiv.Perm.decomposeFin.symm (r, σ) := by
  ext i
  refine Fin.cases ?_ (fun j => ?_) i
  · simp [Equiv.Perm.mul_apply, Equiv.Perm.decomposeFin_symm_apply_zero]
  · simp [Equiv.Perm.mul_apply, Equiv.Perm.decomposeFin_symm_apply_succ]

/-- The result of an LU factorization: `l`ower and `u`pper factors, the row
permutation `p`, the determinant sign `sgn`, and the number of row swaps. -/
structure LUData (n : ℕ) where
  l : Matrix (Fin n) (Fin n) ℚ
  u : Matrix (Fin n) (Fin n) ℚ
  p : Equiv.Perm (Fin n)
  sgn : ℚ
  swaps : ℕ

/-- The pivot row chosen for the leading column: the row of maximal
absolute value in column `0`. -/
def luPiv {n : ℕ} (A : Matrix (Fin (n + 1)) (Fin (n + 1)) ℚ) : Fin (n + 1) :=
  pivotIdx (fun i => A i 0)

/-- The matrix after the pivot row swap of the first elimination step. -/
def luSwapped {n : ℕ} (A : Matrix (Fin (n + 1)) (Fin (n + 1)) ℚ) :
    Matrix (Fin (n + 1)) (Fin (n + 1)) ℚ :=
  fun i j => A (Equiv.swap 0 (luPiv A) i) j

/-- The column of elimination multipliers below the pivot.  Over `ℚ`,
`x / 0 = 0`; by pivot maximality a zero pivot forces the whole column to be
zero, so the multipliers are zero in the degenerate case. -/
def luC {n : ℕ} (A : Matrix (Fin (n + 1)) (Fin (n + 1)) ℚ) : Fin n → ℚ :=
  fun i => luSwapped A i.succ 0 / luSwapped A 0 0

/-- The Schur complement: the trailing submatrix after eliminating the
leading column with the multipliers `luC`. -/
def luSchur {n : ℕ} (A : Matrix (Fin (n + 1)) (Fin (n + 1)) ℚ) :
    Matrix (Fin n) (Fin n) ℚ :=
  fun i j => luSwapped A i.succ j.succ - luC A i * luSwapped A 0 j.succ

/-- Modelled from the spec (§4.3 "LU decomposition"): Gaussian elimination
with partial pivoting, in recursive block form.  For each pivot column the
row of maximum absolute value among the remaining rows is selected and
swapped to the top; the multiplier column and the Schur complement are
formed and elimination recurses.  When the pivot is zero (the matrix is
singular) the factorization still returns a degenerate decomposition with a
zero on the diagonal rather than failing.  Row swaps are recorded in the
permutation `p`, the sign `sgn`, and the swap counter `swaps`. -/
def lu : (n : ℕ) → Matrix (Fin n) (Fin n) ℚ → LUData n
  | 0, _ => ⟨1, 1, 1, 1, 0⟩
  | n + 1, A =>
    let d := lu n (luSchur A)
    { l := fun i => Fin.cases (fun j => Fin.cases 1 (fun _ => 0) j)
        (fun i' => fun j => Fin.cases (luC A (d.p i')) (fun j' => d.l i' j') j) i
      u := fun i => Fin.cases (fun j => luSwapped A 0 j)
        (fun i' => fun j => Fin.cases 0 (fun j' => d.u i' j') j) i
      p := Equiv.swap 0 (luPiv A) * succExt d.p
      sgn := (if luPiv A = 0 then 1 else -1) * d.sgn
      swaps := (if luPiv A = 0 then 0 else 1) + d.swaps }

theorem luSwapped_zero_eq_zero {n : ℕ} (A : Matrix (Fin (n + 1)) (Fin (n + 1)) ℚ)
    (h : luSwapped A 0 0 = 0) (i : Fin (n + 1)) : luSwapped A i 0 = 0 := by
  have hmax := pivotIdx_isMax (fun i => A i 0) (Equiv.swap 0 (luPiv A) i)
  have h0 : A (luPiv A) 0 = 0 := by
    simpa [luSwapped, Equiv.swap_apply_left] using h
  rw [show pivotIdx (fun i => A i 0) = luPiv A from rfl, h0] at hmax
  simp only [abs_zero, abs_nonpos_iff] at hmax
  simpa [luSwapped] using hmax

theorem luC_mul_piv {n : ℕ} (A : Matrix (Fin (n + 1)) (Fin (n + 1)) ℚ) (i : Fin n) :
    luC A i * luSwapped A 0 0 = luSwapped A i.succ 0 := by
  rcases eq_or_ne (luSwapped A 0 0) 0 with h | h
  · rw [h, mul_zero, luSwapped_zero_eq_zero A h]
  · rw [luC, div_mul_cancel₀ _ h]

theorem lu_succ_l {n : ℕ} (A : Matrix (Fin (n + 1)) (Fin (n + 1)) ℚ) :
    (lu (n + 1) A).l = fun i => Fin.cases (fun j => Fin.cases 1 (fun _ => 0) j)
      (fun i' => fun j => Fin.cases (luC A ((lu n (luSchur A)).p i'))
        (fun j' => (lu n (luSchur A)).l i' j') j) i := rfl

theorem lu_succ_u {n : ℕ} (A : Matrix (Fin (n + 1)) (Fin (n + 1)) ℚ) :
    (lu (n + 1) A).u = fun i => Fin.cases (fun j => luSwapped A 0 j)
      (fun i' => fun j => Fin.cases 0 (fun j' => (lu n (luSchur A)).u i' j') j) i := rfl

theorem lu_succ_p {n : ℕ} (A : Matrix (Fin (n + 1)) (Fin (n + 1)) ℚ) :
    (lu (n + 1) A).p = Equiv.swap 0 (luPiv A) * succExt (lu n (luSchur A)).p := rfl

theorem lu_succ_sgn {n : ℕ} (A : Matrix (Fin (n + 1)) (Fin (n + 1)) ℚ) :
    (lu (n + 1) A).sgn = (if luPiv A = 0 then 1 else -1) * (lu n (luSchur A)).sgn := rfl

theorem lu_succ_swaps {n : ℕ} (A : Matrix (Fin (n + 1)) (Fin (n + 1)) ℚ) :
    (lu (n + 1) A).swaps = (if luPiv A = 0 then 0 else 1) + (lu n (luSchur A)).swaps := rfl

/-- The rows of `A` permuted by `σ`: row `i` of the result is row `σ i` of
`A`.  This is the action of the pivot permutation on the source matrix. -/
def permRows {n : ℕ} (σ : Equiv.Perm (Fin n)) (A : Matrix (Fin n) (Fin n) ℚ) :
    Matrix (Fin n) (Fin n) ℚ :=
  fun i j => A (σ i) j

/-- The permutation matrix of `σ` (a `1` in row `i` at column `σ i`). -/
def permMatrix {n : ℕ} (σ : Equiv.Perm (Fin n)) : Matrix (Fin n) (Fin n) ℚ :=
  fun i j => if σ i = j then 1 else 0

theorem permMatrix_mul {n : ℕ} (σ : Equiv.Perm (Fin n))
    (A : Matrix (Fin n) (Fin n) ℚ) : permMatrix σ * A = permRows σ A := by
  ext i j
  rw [Matrix.mul_apply]
  rw [Finset.sum_eq_single (σ i)]
  · simp [permMatrix, permRows]
  · intro k _ hk
    simp [permMatrix, Ne.symm hk]
  · intro h
    exact absurd (Finset.mem_univ _) h

theorem lu_l_diag : ∀ (n : ℕ) (A : Matrix (Fin n) (Fin n) ℚ) (i : Fin n),
    (lu n A).l i i = 1
  | 0, _, i => i.elim0
  | n + 1, A, i => by
    refine Fin.cases ?_ (fun i' => ?_) i
    · rw [lu_succ_l]; simp
    · rw [lu_succ_l]; simpa using lu_l_diag n (luSchur A) i'

theorem lu_l_upper_zero : ∀ (n : ℕ) (A : Matrix (Fin n) (Fin n) ℚ)
    (i j : Fin n), i < j → (lu n A).l i j = 0
  | 0, _, i, _, _ => i.elim0
  | n + 1, A, i, j, hij => by
    refine Fin.cases (motive := fun i => i < j → (lu (n + 1) A).l i j = 0)
      ?_ (fun i' => ?_) i hij
    · intro hj
      refine Fin.cases (motive := fun j => 0 < j → (lu (n + 1) A).l 0 j = 0)
        ?_ (fun j' => ?_) j hj
      · intro h; exact absurd h (lt_irrefl _)
      · intro _; rw [lu_succ_l]; simp
    · intro hj
      refine Fin.cases (motive := fun j => i'.succ < j → (lu (n + 1) A).l i'.succ j = 0)
        ?_ (fun j' => ?_) j hj
      · intro h; exact absurd h (by simp [Fin.lt_def])
      · intro h
        rw [lu_succ_l]
        simpa using lu_l_upper_zero n (luSchur A) i' j' (Fin.succ_lt_succ_iff.mp h)

theorem lu_u_lower_zero : ∀ (n : ℕ) (A : Matrix (Fin n) (Fin n) ℚ)
    (i j : Fin n), j < i → (lu n A).u i j = 0
  | 0, _, i, _, _ => i.elim0
  | n + 1, A, i, j, hij => by
    refine Fin.cases (motive := fun i => j < i → (lu (n + 1) A).u i j = 0)
      ?_ (fun i' => ?_) i hij
    · intro h; exact absurd h (by simp [Fin.lt_def])
    · intro hi
      refine Fin.cases (motive := fun j => j < i'.succ → (lu (n + 1) A).u i'.succ j = 0)
        ?_ (fun j' => ?_) j hi
      · intro _; rw [lu_succ_u]; simp
      · intro h
        rw [lu_succ_u]
        simpa using lu_u_lower_zero n (luSchur A) i' j' (Fin.succ_lt_succ_iff.mp h)

/-- The central LU invariant: the product of the factors equals the
row-permuted source matrix, exactly, for every square matrix (partial
pivoting makes the degenerate zero-pivot case work out as well). -/
theorem lu_mul : ∀ (n : ℕ) (A : Matrix (Fin n) (Fin n) ℚ),
    (lu n A).l * (lu n A).u = permRows (lu n A).p A
  | 0, _ => by
    ext i _
    exact i.elim0
  | n + 1, A => by
    have IH' : ∀ i j, (∑ k, (lu n (luSchur A)).l i k * (lu n (luSchur A)).u k j)
        = luSchur A ((lu n (luSchur A)).p i) j := by
      intro i j
      have h := congrFun (congrFun (lu_mul n (luSchur A)) i) j
      rwa [Matrix.mul_apply] at h
    ext i j
    rw [Matrix.mul_apply]
    refine Fin.cases ?_ (fun i' => ?_) i
    · rw [Fin.sum_univ_succ]
      simp only [lu_succ_l, lu_succ_u, lu_succ_p, Fin.cases_zero, Fin.cases_succ,
        permRows, Equiv.Perm.mul_apply, succExt_zero, zero_mul, one_mul,
        Finset.sum_const_zero, add_zero, Equiv.swap_apply_left]
      simp [luSwapped]
    · refine Fin.cases ?_ (fun j' => ?_) j
      · rw [Fin.sum_univ_succ]
        simp only [lu_succ_l, lu_succ_u, lu_succ_p, Fin.cases_zero, Fin.cases_succ,
          mul_zero, Finset.sum_const_zero, add_zero, permRows,
          Equiv.Perm.mul_apply, succExt_succ]
        rw [luC_mul_piv]
        simp [luSwapped]
      · rw [Fin.sum_univ_succ]
        simp only [lu_succ_l, lu_succ_u, lu_succ_p, Fin.cases_zero, Fin.cases_succ,
          permRows, Equiv.Perm.mul_apply, succExt_succ]
        rw [IH']
        simp only [luSchur, luSwapped]
        ring

theorem lu_det_l (n : ℕ) (A : Matrix (Fin n) (Fin n) ℚ) :
    (lu n A).l.det = 1 := by
  rw [Matrix.det_of_lowerTriangular (lu n A).l
    (fun i j h => lu_l_upper_zero n A i j (by simpa using h))]
  simp [lu_l_diag]

theorem lu_det_u (n : ℕ) (A : Matrix (Fin n) (Fin n) ℚ) :
    (lu n A).u.det = ∏ i, (lu n A).u i i :=
  Matrix.det_of_upperTriangular (fun i j h => lu_u_lower_zero n A i j h)

theorem permRows_eq_submatrix {n : ℕ} (σ : Equiv.Perm (Fin n))
    (A : Matrix (Fin n) (Fin n) ℚ) : permRows σ A = A.submatrix σ id := rfl

theorem lu_sgn_eq_sign : ∀ (n : ℕ) (A : Matrix (Fin n) (Fin n) ℚ),
    (lu n A).sgn = ((Equiv.Perm.sign (lu n A).p : ℤ) : ℚ)
  | 0, _ => by simp [lu]
  | n + 1, A => by
    rw [lu_succ_sgn, lu_succ_p, succExt_eq_decomposeFin,
      Equiv.Perm.decomposeFin.symm_sign, lu_sgn_eq_sign n (luSchur A)]
    rcases eq_or_ne (luPiv A) 0 with h | h <;> simp [h]

theorem lu_sgn_eq_pow_swaps : ∀ (n : ℕ) (A : Matrix (Fin n) (Fin n) ℚ),
    (lu n A).sgn = (-1 : ℚ) ^ (lu n A).swaps
  | 0, _ => by simp [lu]
  | n + 1, A => by
    rw [lu_succ_sgn, lu_succ_swaps, lu_sgn_eq_pow_swaps n (luSchur A), pow_add]
    rcases eq_or_ne (luPiv A) 0 with h | h <;> simp [h]

theorem lu_sgn_mul_self (n : ℕ) (A : Matrix (Fin n) (Fin n) ℚ) :
    (lu n A).sgn * (lu n A).sgn = 1 := by
  rw [lu_sgn_eq_pow_swaps, ← pow_add]
  exact Even.neg_one_pow ⟨(lu n A).swaps, rfl⟩

/-- Modelled from the spec (§4.6 "`determinant(A)`: product of LU's `upper`
diagonal times `sign`"). -/
def determinant {n : ℕ} (A : Matrix (Fin n) (Fin n) ℚ) : ℚ :=
  (lu n A).sgn * ∏ i, (lu n A).u i i

theorem prod_diag_u (n : ℕ) (A : Matrix (Fin n) (Fin n) ℚ) :
    (∏ i, (lu n A).u i i) = (lu n A).sgn * A.det := by
  have h := congrArg Matrix.det (lu_mul n A)
  rw [Matrix.det_mul, lu_det_l, lu_det_u, one_mul, permRows_eq_submatrix,
    Matrix.det_permute, ← lu_sgn_eq_sign] at h
  exact h

/-- The spec's `determinant` agrees with the mathematical determinant. -/
theorem determinant_eq_det (n : ℕ) (A : Matrix (Fin n) (Fin n) ℚ) :
    determinant A = A.det := by
  rw [determinant, prod_diag_u, ← mul_assoc, lu_sgn_mul_self, one_mul]

theorem lu_u_diag_ne_zero (n : ℕ) (A : Matrix (Fin n) (Fin n) ℚ)
    (h : A.det ≠ 0) (i : Fin n) : (lu n A).u i i ≠ 0 := by
  have hp : (∏ i, (lu n A).u i i) ≠ 0 := by
    rw [prod_diag_u]
    refine mul_ne_zero ?_ h
    rw [lu_sgn_eq_pow_swaps]
    exact pow_ne_zero _ (by norm_num)
  intro hz
  exact hp (Finset.prod_eq_zero (Finset.mem_univ i) hz)

theorem lu_u_diag_zero_of_det_zero (n : ℕ) (A : Matrix (Fin n) (Fin n) ℚ)
    (h : A.det = 0) : ∃ i, (lu n A).u i i = 0 := by
  have hp : (∏ i, (lu n A).u i i) = 0 := by
    rw [prod_diag_u, h, mul_zero]
  rcases Finset.prod_eq_zero_iff.mp hp with ⟨i, _, hi⟩
  exact ⟨i, hi⟩

/-- Modelled from the spec (§4.6 "forward-substitute using
`lower`/permutation"): forward substitution against a unit-lower-triangular
matrix, in recursive block form. -/
def forwardSub : (n : ℕ) → Matrix (Fin n) (Fin n) ℚ → (Fin n → ℚ) → (Fin n → ℚ)
  | 0, _, _ => fun i => i.elim0
  | n + 1, L, b =>
    let y0 := b 0
    let rest := forwardSub n (fun i j => L i.succ j.succ)
      (fun i => b i.succ - L i.succ 0 * y0)
    fun i => Fin.cases y0 rest i

/-- Modelled from the spec (§4.6 "back-substitute using `upper`"): back
substitution against an upper-triangular matrix, in recursive block form. -/
def backSub : (n : ℕ) → Matrix (Fin n) (Fin n) ℚ → (Fin n → ℚ) → (Fin n → ℚ)
  | 0, _, _ => fun i => i.elim0
  | n + 1, U, y =>
    let xn := y (Fin.last n) / U (Fin.last n) (Fin.last n)
    let rest := backSub n (fun i j => U i.castSucc j.castSucc)
      (fun i => y i.castSucc - U i.castSucc (Fin.last n) * xn)
    Fin.snoc rest xn

theorem forwardSub_correct : ∀ (n : ℕ) (L : Matrix (Fin n) (Fin n) ℚ)
    (b : Fin n → ℚ), (∀ i, L i i = 1) → (∀ i j, i < j → L i j = 0) →
    L.mulVec (forwardSub n L b) = b
  | 0, _, _, _, _ => funext fun i => i.elim0
  | n + 1, L, b, hdiag, hupper => by
    have IH := forwardSub_correct n (fun i j => L i.succ j.succ)
      (fun i => b i.succ - L i.succ 0 * b 0)
      (fun i => hdiag i.succ)
      (fun i j h => hupper i.succ j.succ (Fin.succ_lt_succ_iff.mpr h))
    funext i
    rw [Matrix.mulVec, Matrix.dotProduct, Fin.sum_univ_succ]
    refine Fin.cases ?_ (fun i' => ?_) i
    · have hz : ∀ j' : Fin n, L 0 j'.succ * forwardSub (n + 1) L b j'.succ = 0 := by
        intro j'
        rw [hupper 0 j'.succ (Fin.succ_pos j'), zero_mul]
      rw [Finset.sum_congr rfl (fun j' _ => hz j')]
      simp [forwardSub, hdiag 0]
    · have IH' := congrFun IH i'
      rw [Matrix.mulVec, Matrix.dotProduct] at IH'
      have hrest : ∀ j' : Fin n,
          L i'.succ j'.succ * forwardSub (n + 1) L b j'.succ
          = L i'.succ j'.succ * forwardSub n (fun i j => L i.succ j.succ)
              (fun i => b i.succ - L i.succ 0 * b 0) j' := by
        intro j'; rw [show forwardSub (n + 1) L b j'.succ
          = forwardSub n (fun i j => L i.succ j.succ)
              (fun i => b i.succ - L i.succ 0 * b 0) j' from rfl]
      rw [Finset.sum_congr rfl (fun j' _ => hrest j'), IH']
      show L i'.succ 0 * b 0 + (b i'.succ - L i'.succ 0 * b 0) = b i'.succ
      ring

theorem backSub_succ (n : ℕ) (U : Matrix (Fin (n + 1)) (Fin (n + 1)) ℚ)
    (y : Fin (n + 1) → ℚ) :
    backSub (n + 1) U y = Fin.snoc
      (backSub n (fun i j => U i.castSucc j.castSucc)
        (fun i => y i.castSucc - U i.castSucc (Fin.last n)
          * (y (Fin.last n) / U (Fin.last n) (Fin.last n))))
      (y (Fin.last n) / U (Fin.last n) (Fin.last n)) := rfl

theorem backSub_correct : ∀ (n : ℕ) (U : Matrix (Fin n) (Fin n) ℚ)
    (y : Fin n → ℚ), (∀ i j, j < i → U i j = 0) → (∀ i, U i i ≠ 0) →
    U.mulVec (backSub n U y) = y
  | 0, _, _, _, _ => funext fun i => i.elim0
  | n + 1, U, y, hlower, hdiag => by
    have hlast : backSub (n + 1) U y (Fin.last n)
        = y (Fin.last n) / U (Fin.last n) (Fin.last n) := by
      rw [backSub_succ, Fin.snoc_last]
    have hsnoc : ∀ j' : Fin n, backSub (n + 1) U y j'.castSucc
        = backSub n (fun i j => U i.castSucc j.castSucc)
            (fun i => y i.castSucc - U i.castSucc (Fin.last n)
              * (y (Fin.last n) / U (Fin.last n) (Fin.last n))) j' := by
      intro j'
      rw [backSub_succ, Fin.snoc_castSucc]
    have IH := backSub_correct n (fun i j => U i.castSucc j.castSucc)
      (fun i => y i.castSucc - U i.castSucc (Fin.last n)
        * (y (Fin.last n) / U (Fin.last n) (Fin.last n)))
      (fun i j h => hlower i.castSucc j.castSucc (by simpa using h))
      (fun i => hdiag i.castSucc)
    funext i
    rw [Matrix.mulVec, Matrix.dotProduct, Fin.sum_univ_castSucc]
    refine Fin.lastCases ?_ (fun i' => ?_) i
    · have hz : ∀ j' : Fin n,
          U (Fin.last n) j'.castSucc * backSub (n + 1) U y j'.castSucc = 0 := by
        intro j'
        rw [hlower (Fin.last n) j'.castSucc (Fin.castSucc_lt_last j'), zero_mul]
      rw [Finset.sum_congr rfl (fun j' _ => hz j'), hlast]
      rw [mul_div_cancel₀ _ (hdiag (Fin.last n))]
      simp
    · have IH' := congrFun IH i'
      rw [Matrix.mulVec, Matrix.dotProduct] at IH'
      rw [Finset.sum_congr rfl (fun j' _ => by rw [hsnoc j']), IH', hlast]
      ring

/-- Modelled from the spec (§4.6 "`solve(A, b)`"): factor via LU; fail with
`SingularMatrix` if any diagonal entry of `upper` is negligible; otherwise
forward-substitute using `lower` and the permutation, then back-substitute
using `upper`.  The LU factors are computed once (`let d := lu n A`) and
both substitutions reuse them. -/
def luSolve {n : ℕ} (A : Matrix (Fin n) (Fin n) ℚ) (b : Fin n → ℚ) :
    Except Err (Fin n → ℚ) :=
  let d := lu n A
  if ∃ i, isNegligible (d.u i i) = true then Except.error Err.SingularMatrix
  else Except.ok (backSub n d.u (forwardSub n d.l (fun i => b (d.p i))))

/-- Modelled from the spec (§4.6 "`inverse(A)`"): solve `A X = I` column by
column, reusing the single cached LU factorization for every column; fail
with `SingularMatrix` on a negligible diagonal entry of `upper`. -/
def inverse {n : ℕ} (A : Matrix (Fin n) (Fin n) ℚ) :
    Except Err (Matrix (Fin n) (Fin n) ℚ) :=
  let d := lu n A
  if ∃ i, isNegligible (d.u i i) = true then Except.error Err.SingularMatrix
  else Except.ok (fun i j =>
    backSub n d.u (forwardSub n d.l
      (fun k => (1 : Matrix (Fin n) (Fin n) ℚ) (d.p k) j)) i)

theorem luSolveCore_correct {n : ℕ} (A : Matrix (Fin n) (Fin n) ℚ)
    (b : Fin n → ℚ) (hu : ∀ i, (lu n A).u i i ≠ 0) :
    A.mulVec (backSub n (lu n A).u (forwardSub n (lu n A).l
      (fun i => b ((lu n A).p i)))) = b := by
  set d := lu n A with hd
  set x := backSub n d.u (forwardSub n d.l (fun i => b (d.p i))) with hx
  have hU : d.u.mulVec x = forwardSub n d.l (fun i => b (d.p i)) :=
    backSub_correct n d.u _ (fun i j h => lu_u_lower_zero n A i j h) hu
  have hL : d.l.mulVec (d.u.mulVec x) = fun i => b (d.p i) := by
    rw [hU]
    exact forwardSub_correct n d.l _ (fun i => lu_l_diag n A i)
      (fun i j h => lu_l_upper_zero n A i j h)
  have hperm : (permRows d.p A).mulVec x = fun i => b (d.p i) := by
    rw [← lu_mul n A, ← Matrix.mulVec_mulVec, hL]
  funext k
  have hk := congrFun hperm (d.p.symm k)
  have : (permRows d.p A).mulVec x (d.p.symm k) = A.mulVec x k := by
    show Matrix.dotProduct (A (d.p (d.p.symm k))) x = Matrix.dotProduct (A k) x
    rw [Equiv.apply_symm_apply]
  rw [this] at hk
  rw [hk, Equiv.apply_symm_apply]

theorem luSolve_correct {n : ℕ} (A : Matrix (Fin n) (Fin n) ℚ)
    (b : Fin n → ℚ) (h : A.det ≠ 0) :
    ∃ x, luSolve A b = Except.ok x ∧ A.mulVec x = b := by
  have hu : ∀ i, (lu n A).u i i ≠ 0 := lu_u_diag_ne_zero n A h
  refine ⟨_, ?_, luSolveCore_correct A b hu⟩
  rw [luSolve, if_neg]
  push_neg
  intro i
  simpa [isNegligible_iff] using hu i

theorem inverse_correct {n : ℕ} (A : Matrix (Fin n) (Fin n) ℚ)
    (h : A.det ≠ 0) :
    ∃ B, inverse A = Except.ok B ∧ A * B = 1 := by
  have hu : ∀ i, (lu n A).u i i ≠ 0 := lu_u_diag_ne_zero n A h
  refine ⟨fun i j => backSub n (lu n A).u (forwardSub n (lu n A).l
    (fun k => (1 : Matrix (Fin n) (Fin n) ℚ) ((lu n A).p k) j)) i, ?_, ?_⟩
  · rw [inverse, if_neg]
    push_neg
    intro i
    simpa [isNegligible_iff] using hu i
  · ext i j
    have hcol := congrFun
      (luSolveCore_correct A (fun k => (1 : Matrix (Fin n) (Fin n) ℚ) k j) hu) i
    rw [Matrix.mulVec, Matrix.dotProduct] at hcol
    rw [Matrix.mul_apply]
    exact hcol

theorem inverse_roundtrip {n : ℕ} (A : Matrix (Fin n) (Fin n) ℚ)
    (h : A.det ≠ 0) :
    ∃ B C, inverse A = Except.ok B ∧ inverse B = Except.ok C ∧ C = A := by
  obtain ⟨B, hB, hAB⟩ := inverse_correct A h
  have hdetB : B.det ≠ 0 := by
    intro h0
    have hd := congrArg Matrix.det hAB
    rw [Matrix.det_mul, Matrix.det_one, h0, mul_zero] at hd
    exact absurd hd (by norm_num)
  obtain ⟨C, hC, hBC⟩ := inverse_correct B hdetB
  refine ⟨B, C, hB, hC, ?_⟩
  have hd := congrArg (fun M => A * M) hBC
  simpa [← mul_assoc, hAB] using hd

/-! ## RREF and rank -/

/-- One Gauss-Jordan elimination step for a single column `j`, modelled from
the spec (§4.4): among the rows at or below the current pivot row, select
the one of maximal absolute value in column `j`; if it is negligible the
column contributes no pivot; otherwise swap it up, scale the pivot row to a
unit pivot, eliminate every other row, and record the pivot column. -/
def rrefStep {m n : ℕ} (st : Matrix (Fin m) (Fin n) ℚ × ℕ × List ℕ)
    (j : Fin n) : Matrix (Fin m) (Fin n) ℚ × ℕ × List ℕ :=
  match List.argmax (fun i => |st.1 i j|)
      ((List.finRange m).filter (fun i => decide (st.2.1 ≤ (i : ℕ)))) with
  | none => st
  | some piv =>
    if isNegligible (st.1 piv j) then st
    else
      if hr : st.2.1 < m then
        let rr : Fin m := ⟨st.2.1, hr⟩
        let A1 := fun i k => st.1 (Equiv.swap rr piv i) k
        let A2 := fun i k => if i = rr then A1 i k / A1 rr j else A1 i k
        let A3 := fun i k =>
          if i = rr then A2 i k else A2 i k - A2 i j * A2 rr k
        (A3, st.2.1 + 1, st.2.2 ++ [(j : ℕ)])
      else st

/-- Modelled from the spec (§4.4 "RREF"): Gauss-Jordan elimination with
partial pivoting over the columns left to right, producing the reduced
matrix, the final pivot-row count, and the list of pivot column indices. -/
def rref (m n : ℕ) (A : Matrix (Fin m) (Fin n) ℚ) :
    Matrix (Fin m) (Fin n) ℚ × ℕ × List ℕ :=
  (List.finRange n).foldl rrefStep (A, 0, [])

/-- Modelled from the spec (§4.6 "`rank(A)`: via RREF pivot count"). -/
def rankOf (m n : ℕ) (A : Matrix (Fin m) (Fin n) ℚ) : ℕ :=
  (rref m n A).2.2.length

/-! ## Cholesky (square-root-free LDLᵀ form) -/

/-- The multiplier column of the first LDLᵀ elimination step. -/
def ldlC {n : ℕ} (A : Matrix (Fin (n + 1)) (Fin (n + 1)) ℚ) : Fin n → ℚ :=
  fun i => A i.succ 0 / A 0 0

/-- The Schur complement of the leading entry in the LDLᵀ recursion. -/
def ldlSchur {n : ℕ} (A : Matrix (Fin (n + 1)) (Fin (n + 1)) ℚ) :
    Matrix (Fin n) (Fin n) ℚ :=
  fun i j => A i.succ j.succ - ldlC A i * A 0 0 * ldlC A j

/-- Modelled from the spec (§4.5, §3 "Cholesky { lower }"): the underlying
Cholesky factorization, which fails as soon as a non-positive pivot is
detected.  Exact rational arithmetic has no square roots, so the factor is
produced in the equivalent square-root-free `L · diag D · Lᵀ` form (the
Cholesky factor of the spec is `L · diag (√D)`); the success/failure
behaviour — the only thing the spec's claims constrain — is unchanged. -/
def ldl : (n : ℕ) →
    Matrix (Fin n) (Fin n) ℚ → Option (Matrix (Fin n) (Fin n) ℚ × (Fin n → ℚ))
  | 0, _ => some (1, fun i => i.elim0)
  | n + 1, A =>
    if A 0 0 ≤ 0 then none
    else
      match ldl n (ldlSchur A) with
      | none => none
      | some (L', D') => some
          (fun i => Fin.cases (fun j => Fin.cases 1 (fun _ => 0) j)
            (fun i' => fun j => Fin.cases (ldlC A i') (fun j' => L' i' j') j) i,
           Fin.cases (A 0 0) D')

/-- Positive definiteness of a rational matrix as a quadratic form. -/
def PosDefQ {n : ℕ} (A : Matrix (Fin n) (Fin n) ℚ) : Prop :=
  ∀ x : Fin n → ℚ, x ≠ 0 → 0 < Matrix.dotProduct x (A.mulVec x)

theorem ldl_succ_isSome {n : ℕ} (A : Matrix (Fin (n + 1)) (Fin (n + 1)) ℚ)
    (h : (ldl (n + 1) A).isSome = true) :
    0 < A 0 0 ∧ (ldl n (ldlSchur A)).isSome = true := by
  by_cases h0 : A 0 0 ≤ 0
  · rw [ldl, if_pos h0] at h
    simp at h
  · refine ⟨not_le.mp h0, ?_⟩
    rw [ldl, if_neg h0] at h
    rcases hld : ldl n (ldlSchur A) with _ | LD
    · rw [hld] at h
      simp at h
    · simp

theorem ldl_posDefQ : ∀ (n : ℕ) (A : Matrix (Fin n) (Fin n) ℚ),
    (∀ i j, A i j = A j i) → (ldl n A).isSome = true → PosDefQ A
  | 0, A, _, _ => by
    intro x hx
    exact absurd (funext fun i => i.elim0) hx
  | n + 1, A, hsym, hsome => by
    obtain ⟨hd0, hS⟩ := ldl_succ_isSome A hsome
    have hd0' : A 0 0 ≠ 0 := ne_of_gt hd0
    have hSsym : ∀ i j, ldlSchur A i j = ldlSchur A j i := by
      intro i j
      simp only [ldlSchur]
      rw [hsym i.succ j.succ]
      ring
    have IH := ldl_posDefQ n (ldlSchur A) hSsym hS
    intro x hx
    have hcol : ∀ i : Fin n, A i.succ 0 = ldlC A i * A 0 0 :=
      fun i => (div_mul_cancel₀ _ hd0').symm
    have hrow : ∀ j : Fin n, A 0 j.succ = ldlC A j * A 0 0 :=
      fun j => by rw [hsym 0 j.succ]; exact hcol j
    have hblock : ∀ i j : Fin n,
        A i.succ j.succ = ldlSchur A i j + ldlC A i * A 0 0 * ldlC A j := by
      intro i j
      simp only [ldlSchur]
      ring
    set xr : Fin n → ℚ := fun i => x i.succ with hxr
    set t : ℚ := ∑ j, ldlC A j * xr j with ht
    have hv0 : A.mulVec x 0 = A 0 0 * x 0 + A 0 0 * t := by
      simp only [Matrix.mulVec, Matrix.dotProduct]
      rw [Fin.sum_univ_succ]
      congr 1
      rw [ht, Finset.mul_sum]
      exact Finset.sum_congr rfl fun j _ => by rw [hrow j]; ring
    have hvs : ∀ i : Fin n, A.mulVec x i.succ
        = ldlC A i * A 0 0 * x 0 + ((ldlSchur A).mulVec xr) i
          + ldlC A i * A 0 0 * t := by
      intro i
      simp only [Matrix.mulVec, Matrix.dotProduct]
      rw [Fin.sum_univ_succ, hcol i]
      have hrest : ∑ j : Fin n, A i.succ j.succ * x j.succ
          = (∑ j, ldlSchur A i j * xr j) + ldlC A i * A 0 0 * t := by
        rw [ht, Finset.mul_sum, ← Finset.sum_add_distrib]
        exact Finset.sum_congr rfl fun j _ => by rw [hblock i j]; ring
      rw [hrest]
      ring
    have htt : ∑ i, xr i * ldlC A i = t := by
      rw [ht]
      exact Finset.sum_congr rfl fun i _ => mul_comm _ _
    have expand : Matrix.dotProduct x (A.mulVec x)
        = A 0 0 * (x 0 + t) ^ 2 + Matrix.dotProduct xr ((ldlSchur A).mulVec xr) := by
      rw [Matrix.dotProduct, Fin.sum_univ_succ, hv0]
      have hsum : ∑ i : Fin n, x i.succ * A.mulVec x i.succ
          = ∑ i, (xr i * ldlC A i * A 0 0 * x 0
            + xr i * ((ldlSchur A).mulVec xr) i
            + xr i * ldlC A i * A 0 0 * t) :=
        Finset.sum_congr rfl fun i _ => by rw [hvs i]; ring
      rw [hsum, Finset.sum_add_distrib, Finset.sum_add_distrib]
      have e1 : ∑ i, xr i * ldlC A i * A 0 0 * x 0 = t * (A 0 0 * x 0) := by
        rw [← Finset.sum_mul, ← Finset.sum_mul, htt]
        ring
      have e3 : ∑ i, xr i * ldlC A i * A 0 0 * t = t * (A 0 0 * t) := by
        rw [← Finset.sum_mul, ← Finset.sum_mul, htt]
        ring
      have e2 : ∑ i, xr i * ((ldlSchur A).mulVec xr) i
          = Matrix.dotProduct xr ((ldlSchur A).mulVec xr) := rfl
      rw [e1, e2, e3]
      ring
    rw [expand]
    by_cases hxr0 : xr = 0
    · have hx0 : x 0 ≠ 0 := by
        intro h0
        apply hx
        funext i
        refine Fin.cases h0 (fun i' => ?_) i
        exact congrFun hxr0 i'
      have ht0 : t = 0 := by
        rw [ht, hxr0]
        simp
      have hqz : Matrix.dotProduct xr ((ldlSchur A).mulVec xr) = 0 := by
        rw [hxr0]
        simp [Matrix.dotProduct]
      rw [ht0, hqz, add_zero, add_zero]
      have : (0 : ℚ) < x 0 ^ 2 := by positivity
      exact mul_pos hd0 this
    · have h1 : 0 < Matrix.dotProduct xr ((ldlSchur A).mulVec xr) := IH xr hxr0
      have h2 : (0 : ℚ) ≤ A 0 0 * (x 0 + t) ^ 2 :=
        mul_nonneg (le_of_lt hd0) (sq_nonneg _)
      linarith

/-- Modelled from the spec (§3 "Matrix"): a rows × cols matrix of rational
scalars.  The spec's contiguous buffer with invariant
`data.len() == rows*cols` is embedded as the total entry function
`Fin rows → Fin cols → ℚ` (entry `(i, j)` standing for `data[i*cols + j]`),
which carries the length invariant by typing. -/
structure RMat where
  rows : ℕ
  cols : ℕ
  entry : Fin rows → Fin cols → ℚ

/-- A square `RMat` viewed as a square matrix. -/
def sqMat (M : RMat) (h : M.rows = M.cols) :
    Matrix (Fin M.rows) (Fin M.rows) ℚ :=
  fun i j => M.entry i (Fin.cast h j)

/-- Modelled from the spec (§4.5 "Cholesky"): a thin precondition-checked
wrapper.  Requires a square matrix (else `NotSquare`) and a symmetric one
(symmetry checked entrywise with the engine's tolerance, which is exact
here); a non-symmetric or indefinite input fails with
`NotPositiveDefinite`, reported when the underlying factorization `ldl`
detects a non-positive pivot. -/
def cholesky (M : RMat) :
    Except Err (Matrix (Fin M.rows) (Fin M.rows) ℚ × (Fin M.rows → ℚ)) :=
  if h : M.rows = M.cols then
    if ∀ i j, sqMat M h i j = sqMat M h j i then
      match ldl M.rows (sqMat M h) with
      | some LD => Except.ok LD
      | none => Except.error Err.NotPositiveDefinite
    else Except.error Err.NotPositiveDefinite
  else Except.error Err.NotSquare

theorem cholesky_ok_posDef (M : RMat)
    (LD : Matrix (Fin M.rows) (Fin M.rows) ℚ × (Fin M.rows → ℚ))
    (hok : cholesky M = Except.ok LD) :
    ∃ h : M.rows = M.cols,
      (∀ i j, sqMat M h i j = sqMat M h j i) ∧ PosDefQ (sqMat M h) := by
  by_cases h : M.rows = M.cols
  · refine ⟨h, ?_⟩
    rw [cholesky, dif_pos h] at hok
    by_cases hs : ∀ i j, sqMat M h i j = sqMat M h j i
    · refine ⟨hs, ?_⟩
      rw [if_pos hs] at hok
      rcases hld : ldl M.rows (sqMat M h) with _ | LD'
      · rw [hld] at hok
        exact absurd hok (by simp)
      · exact ldl_posDefQ M.rows (sqMat M h) hs (by rw [hld]; rfl)
    · rw [if_neg hs] at hok
      exact absurd hok (by simp)
  · rw [cholesky, dif_neg h] at hok
    exact absurd hok (by simp)

theorem cholesky_fails_of_not_posDef (M : RMat)
    (hbad : ¬ ∃ h : M.rows = M.cols,
      (∀ i j, sqMat M h i j = sqMat M h j i) ∧ PosDefQ (sqMat M h)) :
    cholesky M = Except.error Err.NotSquare ∨
    cholesky M = Except.error Err.NotPositiveDefinite := by
  rcases hres : cholesky M with e | LD
  · rw [cholesky] at hres
    by_cases h : M.rows = M.cols
    · rw [dif_pos h] at hres
      by_cases hs : ∀ i j, sqMat M h i j = sqMat M h j i
      · rw [if_pos hs] at hres
        rcases hld : ldl M.rows (sqMat M h) with _ | LD'
        · rw [hld] at hres
          simp at hres
          right
          rw [hres]
        · rw [hld] at hres
          exact absurd hres (by simp)
      · rw [if_neg hs] at hres
        simp at hres
        right
        rw [hres]
    · rw [dif_neg h] at hres
      simp at hres
      left
      rw [hres]
  · exact absurd (cholesky_ok_posDef M LD hres) hbad

/-! ## Backend dispatcher -/

/-- The dispatcher's capability set (spec §4.2). -/
inductive Capability where
  | multiply : Capability
  | qr : Capability
  | svd : Capability
  | cholesky : Capability
deriving DecidableEq, Repr

/-- The two compute backends selected at build time (spec §2, §4.2). -/
inductive Backend where
  | native : Backend
  | accelerated : Backend
deriving DecidableEq, Repr

/-- Modelled from the spec (§4.2): which capabilities each backend offers.
In native mode only `multiply` (naive) is available; in accelerated mode
all four delegate to the external library. -/
def availableCapabilities : Backend → Capability → Bool
  | Backend.native, Capability.multiply => true
  | Backend.native, _ => false
  | Backend.accelerated, _ => true

/-- Modelled from the spec (§4.2, §8): the native build's QR entry point
fails fast with `BackendUnavailable` naming the missing capability. -/
def nativeQr (_ : RMat) : Except Err (RMat × RMat) :=
  Except.error (Err.BackendUnavailable "qr")

/-- Modelled from the spec (§4.2): the native build's SVD entry point. -/
def nativeSvd (_ : RMat) : Except Err (RMat × RMat × RMat) :=
  Except.error (Err.BackendUnavailable "svd")

/-- Modelled from the spec (§4.2): the native build's Cholesky entry
point. -/
def nativeCholesky (_ : RMat) : Except Err RMat :=
  Except.error (Err.BackendUnavailable "cholesky")

/-! ## Build script and crate gating -/

/-- Embedded from `build.rs`: `main` prints
`cargo:rustc-link-lib=dylib=blas` when the `CARGO_FEATURE_O3` environment
variable is set (the `feature!` macro) and prints nothing otherwise.  The
boolean argument is whether the `O3` feature is enabled; the result is the
list of emitted cargo directives. -/
def buildScriptOutput (o3 : Bool) : List String :=
  if o3 then ["cargo:rustc-link-lib=dylib=blas"] else []

/-- The cargo features that gate `extern crate` declarations in
`src/lib.rs` (lines 158–183). -/
structure CrateFeatures where
  o3 : Bool
  plot : Bool
  serde : Bool
  nc : Bool

/-- Embedded from `src/lib.rs` lines 158–183: the `extern crate`
declarations in source order.  `blas` and `lapack` appear under
`#[cfg(feature = "O3")]`, `pyo3` under `plot`, `serde` under `serde`,
`netcdf` under `nc`; `rand`, `order_stat`, `puruspe`, `matrixmultiply` and
`peroxide_ad` are unconditional. -/
def linkedCrates (f : CrateFeatures) : List String :=
  (if f.o3 then ["blas", "lapack"] else []) ++
  (if f.plot then ["pyo3"] else []) ++
  (if f.serde then ["serde"] else []) ++
  ["rand", "order_stat", "puruspe", "matrixmultiply"] ++
  (if f.nc then ["netcdf"] else []) ++
  ["peroxide_ad"]

/-! ## Support lemmas for the claim theorems -/

theorem mulVec_cancel {n : ℕ} (A : Matrix (Fin n) (Fin n) ℚ) (h : A.det ≠ 0)
    {x y : Fin n → ℚ} (hxy : A.mulVec x = A.mulVec y) : x = y := by
  have hA : IsUnit A.det := isUnit_iff_ne_zero.mpr h
  have h1 := congrArg (fun v => A⁻¹.mulVec v) hxy
  simpa [Matrix.mulVec_mulVec, Matrix.nonsing_inv_mul A hA] using h1

theorem perm_indexList {n : ℕ} (σ : Equiv.Perm (Fin n)) :
    (List.ofFn (fun i => ((σ i : ℕ)))).Perm (List.range n) := by
  have h1 : List.ofFn (fun i => ((σ i : ℕ)))
      = ((List.finRange n).map σ).map Fin.val := by
    rw [List.ofFn_eq_map, List.map_map]
    rfl
  have h2 : ((List.finRange n).map σ).Perm (List.finRange n) := by
    apply List.perm_of_nodup_nodup_toFinset_eq
    · exact (List.nodup_finRange n).map σ.injective
    · exact List.nodup_finRange n
    · ext a
      constructor
      · intro _
        simp [List.mem_toFinset, List.mem_finRange]
      · intro _
        rw [List.mem_toFinset, List.mem_map]
        exact ⟨σ.symm a, List.mem_finRange _, σ.apply_symm_apply a⟩
  have h3 := h2.map Fin.val
  rw [h1, ← List.map_coe_finRange n]
  exact h3

theorem rrefStep_pivots_length {m n : ℕ}
    (st : Matrix (Fin m) (Fin n) ℚ × ℕ × List ℕ) (j : Fin n) :
    ((rrefStep st j).2.2).length ≤ st.2.2.length + 1 := by
  unfold rrefStep
  split
  · exact Nat.le_succ _
  · split
    · exact Nat.le_succ _
    · split
      · simp
      · exact Nat.le_succ _

theorem rrefStep_pivot_test {m n : ℕ}
    (st : Matrix (Fin m) (Fin n) ℚ × ℕ × List ℕ) (j : Fin n) (piv : Fin m)
    (hpiv : List.argmax (fun i => |st.1 i j|)
      ((List.finRange m).filter (fun i => decide (st.2.1 ≤ (i : ℕ)))) = some piv)
    (hneg : isNegligible (st.1 piv j) = true) :
    rrefStep st j = st := by
  unfold rrefStep
  rw [hpiv]
  simp [hneg]

theorem foldl_rrefStep_length {m n : ℕ} :
    ∀ (l : List (Fin n)) (st : Matrix (Fin m) (Fin n) ℚ × ℕ × List ℕ),
    ((l.foldl rrefStep st).2.2).length ≤ st.2.2.length + l.length
  | [], st => by simp
  | j :: l, st => by
    have h1 := foldl_rrefStep_length l (rrefStep st j)
    have h2 := rrefStep_pivots_length st j
    simp only [List.foldl_cons, List.length_cons]
    omega

theorem rankOf_le_cols (m n : ℕ) (A : Matrix (Fin m) (Fin n) ℚ) :
    rankOf m n A ≤ n := by
  have h := foldl_rrefStep_length (List.finRange n) (A, 0, ([] : List ℕ))
  simpa [rankOf, rref, List.length_finRange] using h

theorem luPiv_463 : luPiv !![(4:ℚ),3;6,3] = 1 := by decide

theorem lu_sgn_463 : (lu 2 !![(4:ℚ),3;6,3]).sgn = -1 := by
  have h0 : (lu 1 (luSchur !![(4:ℚ),3;6,3])).sgn = 1 := by
    rw [lu_succ_sgn, Fin.eq_zero (luPiv (luSchur !![(4:ℚ),3;6,3])), if_pos rfl,
      show (lu 0 (luSchur (luSchur !![(4:ℚ),3;6,3]))).sgn = 1 from rfl]
    norm_num
  rw [lu_succ_sgn, luPiv_463, h0]
  norm_num

theorem luSolve_463 : luSolve !![(4:ℚ),3;6,3] ![1,1] = Except.ok ![0, 1/3] := by
  have hdet : (!![(4:ℚ),3;6,3]).det ≠ 0 := by norm_num [Matrix.det_fin_two_of]
  obtain ⟨x, hok, hx⟩ := luSolve_correct !![(4:ℚ),3;6,3] ![1,1] hdet
  have hx' : (!![(4:ℚ),3;6,3]).mulVec ![0, 1/3] = ![1,1] := by
    funext i
    fin_cases i <;> norm_num [Matrix.mulVec, Matrix.dotProduct, Fin.sum_univ_two]
  have hxe : x = ![0, 1/3] := mulVec_cancel _ hdet (hx.trans hx'.symm)
  rw [hok, hxe]

/-! ## Claim theorems -/

/-- Claim C1: for every square invertible matrix `A`, the LU decomposition
returns factors `(L, U, P, sign)` such that `L * U = P * A` — exactly, in
this rational-arithmetic embedding, hence in particular within the spec's
`1e-9` relative tolerance — `L` is unit-lower-triangular, and the pivot
permutation is a valid permutation of the row indices `0, …, n-1`. -/
theorem claim_C1 (n : ℕ) (A : Matrix (Fin n) (Fin n) ℚ) (_hinv : A.det ≠ 0) :
    (lu n A).l * (lu n A).u = permMatrix (lu n A).p * A
    ∧ (∀ i, (lu n A).l i i = 1)
    ∧ (∀ i j, i < j → (lu n A).l i j = 0)
    ∧ (List.ofFn (fun i => (((lu n A).p i : ℕ)))).Perm (List.range n) := by
  refine ⟨?_, lu_l_diag n A, lu_l_upper_zero n A, perm_indexList (lu n A).p⟩
  rw [permMatrix_mul]
  exact lu_mul n A

theorem claim_C1_witness :
    ((!![(4:ℚ),3;6,3]).det ≠ 0)
    ∧ ((lu 2 !![(4:ℚ),3;6,3]).l * (lu 2 !![(4:ℚ),3;6,3]).u
        = permMatrix (lu 2 !![(4:ℚ),3;6,3]).p * !![(4:ℚ),3;6,3]
      ∧ (∀ i, (lu 2 !![(4:ℚ),3;6,3]).l i i = 1)
      ∧ (∀ i j, i < j → (lu 2 !![(4:ℚ),3;6,3]).l i j = 0)
      ∧ (List.ofFn (fun i => (((lu 2 !![(4:ℚ),3;6,3]).p i : ℕ)))).Perm
          (List.range 2)) :=
  ⟨by norm_num [Matrix.det_fin_two_of],
   claim_C1 2 !![(4:ℚ),3;6,3] (by norm_num [Matrix.det_fin_two_of])⟩

/-- Claim C2: for every square non-singular `A` and compatible `b`,
`solve(A, b)` succeeds with an `x` satisfying `A * x = b` (exactly, hence
`≈` within tolerance); in particular for `A = [[4,3],[6,3]]` and
`b = [1,1]` it returns `[0, 1/3]`. -/
theorem claim_C2 (n : ℕ) (A : Matrix (Fin n) (Fin n) ℚ) (b : Fin n → ℚ)
    (h : A.det ≠ 0) :
    (∃ x, luSolve A b = Except.ok x ∧ A.mulVec x = b)
    ∧ luSolve !![(4:ℚ),3;6,3] ![1,1] = Except.ok ![0, 1/3] :=
  ⟨luSolve_correct A b h, luSolve_463⟩

theorem claim_C2_witness :
    ((!![(4:ℚ),3;6,3]).det ≠ 0)
    ∧ ((∃ x, luSolve !![(4:ℚ),3;6,3] ![1,1] = Except.ok x
          ∧ (!![(4:ℚ),3;6,3]).mulVec x = ![1,1])
      ∧ luSolve !![(4:ℚ),3;6,3] ![1,1] = Except.ok ![0, 1/3]) :=
  ⟨by norm_num [Matrix.det_fin_two_of],
   claim_C2 2 !![(4:ℚ),3;6,3] ![1,1] (by norm_num [Matrix.det_fin_two_of])⟩

/-- Claim C3: for every square matrix `A`, `determinant(A)` equals the
product of the diagonal of LU's upper factor times the sign, with
`sign = (-1) ^ (number of row swaps)`; concretely
`determinant [[4,3],[6,3]] = -6` with `sign = -1`, and
`determinant [[2,0],[0,2]] = 4`. -/
theorem claim_C3 :
    (∀ (n : ℕ) (A : Matrix (Fin n) (Fin n) ℚ),
      determinant A = (-1 : ℚ) ^ (lu n A).swaps * ∏ i, (lu n A).u i i)
    ∧ determinant !![(4:ℚ),3;6,3] = -6
    ∧ (lu 2 !![(4:ℚ),3;6,3]).sgn = -1
    ∧ determinant !![(2:ℚ),0;0,2] = 4 := by
  refine ⟨fun n A => ?_, ?_, lu_sgn_463, ?_⟩
  · rw [determinant, lu_sgn_eq_pow_swaps]
  · rw [determinant_eq_det]
    norm_num [Matrix.det_fin_two_of]
  · rw [determinant_eq_det]
    norm_num [Matrix.det_fin_two_of]

/-- Claim C4: in the native build every QR/SVD/Cholesky entry point fails
with `BackendUnavailable` naming the missing capability, and `multiply` is
the only capability the native dispatcher offers. -/
theorem claim_C4 :
    (∀ M : RMat, nativeQr M = Except.error (Err.BackendUnavailable "qr"))
    ∧ (∀ M : RMat, nativeSvd M = Except.error (Err.BackendUnavailable "svd"))
    ∧ (∀ M : RMat,
        nativeCholesky M = Except.error (Err.BackendUnavailable "cholesky"))
    ∧ (∀ c, availableCapabilities Backend.native c = true
        ↔ c = Capability.multiply) := by
  refine ⟨fun _ => rfl, fun _ => rfl, fun _ => rfl, fun c => ?_⟩
  cases c <;> simp [availableCapabilities]

/-- Claim C5: for every singular square matrix the LU decomposition still
returns a (degenerate) decomposition — the factorization identity holds and
a zero sits on the upper factor's diagonal — while `solve` on the same
matrix fails with `SingularMatrix` because a diagonal entry of `upper` is
negligible; the tolerance test is enforced by `solve`, never by `lu`
itself, which is total. -/
theorem claim_C5 (n : ℕ) (A : Matrix (Fin n) (Fin n) ℚ) (b : Fin n → ℚ)
    (h : A.det = 0) :
    (∃ i, (lu n A).u i i = 0)
    ∧ luSolve A b = Except.error Err.SingularMatrix
    ∧ (lu n A).l * (lu n A).u = permMatrix (lu n A).p * A := by
  obtain ⟨i, hi⟩ := lu_u_diag_zero_of_det_zero n A h
  refine ⟨⟨i, hi⟩, ?_, ?_⟩
  · rw [luSolve, if_pos ⟨i, by simp [isNegligible_iff, hi]⟩]
  · rw [permMatrix_mul]
    exact lu_mul n A

theorem claim_C5_witness :
    ((!![(1:ℚ),1;1,1]).det = 0)
    ∧ ((∃ i, (lu 2 !![(1:ℚ),1;1,1]).u i i = 0)
      ∧ luSolve !![(1:ℚ),1;1,1] ![1,2] = Except.error Err.SingularMatrix
      ∧ (lu 2 !![(1:ℚ),1;1,1]).l * (lu 2 !![(1:ℚ),1;1,1]).u
          = permMatrix (lu 2 !![(1:ℚ),1;1,1]).p * !![(1:ℚ),1;1,1]) :=
  ⟨by norm_num [Matrix.det_fin_two_of],
   claim_C5 2 !![(1:ℚ),1;1,1] ![1,2] (by norm_num [Matrix.det_fin_two_of])⟩

/-- Claim C6: on any input that is not a square symmetric positive-definite
matrix, `cholesky` fails — with `NotSquare` on a non-square input and with
`NotPositiveDefinite` on a non-symmetric or non-positive-definite one — and
never returns a factor; equivalently, it succeeds only on square symmetric
positive-definite input. -/
theorem claim_C6 (M : RMat)
    (hbad : ¬ ∃ h : M.rows = M.cols,
      (∀ i j, sqMat M h i j = sqMat M h j i) ∧ PosDefQ (sqMat M h)) :
    (cholesky M = Except.error Err.NotSquare
      ∨ cholesky M = Except.error Err.NotPositiveDefinite)
    ∧ ∀ LD, cholesky M ≠ Except.ok LD :=
  ⟨cholesky_fails_of_not_posDef M hbad,
   fun LD hok => hbad (cholesky_ok_posDef M LD hok)⟩

theorem claim_C6_witness :
    (¬ ∃ h : (RMat.mk 2 3 fun _ _ => (0:ℚ)).rows
        = (RMat.mk 2 3 fun _ _ => (0:ℚ)).cols,
      (∀ i j, sqMat (RMat.mk 2 3 fun _ _ => (0:ℚ)) h i j
          = sqMat (RMat.mk 2 3 fun _ _ => (0:ℚ)) h j i)
      ∧ PosDefQ (sqMat (RMat.mk 2 3 fun _ _ => (0:ℚ)) h))
    ∧ ((cholesky (RMat.mk 2 3 fun _ _ => (0:ℚ)) = Except.error Err.NotSquare
        ∨ cholesky (RMat.mk 2 3 fun _ _ => (0:ℚ))
            = Except.error Err.NotPositiveDefinite)
      ∧ ∀ LD, cholesky (RMat.mk 2 3 fun _ _ => (0:ℚ)) ≠ Except.ok LD) := by
  have hb : ¬ ∃ h : (RMat.mk 2 3 fun _ _ => (0:ℚ)).rows
      = (RMat.mk 2 3 fun _ _ => (0:ℚ)).cols,
      (∀ i j, sqMat (RMat.mk 2 3 fun _ _ => (0:ℚ)) h i j
          = sqMat (RMat.mk 2 3 fun _ _ => (0:ℚ)) h j i)
      ∧ PosDefQ (sqMat (RMat.mk 2 3 fun _ _ => (0:ℚ)) h) := by
    rintro ⟨h, -⟩
    exact absurd h (by decide)
  exact ⟨hb, claim_C6 (RMat.mk 2 3 fun _ _ => (0:ℚ)) hb⟩

/-- Claim C7: for every square non-singular `A`, inverting twice
round-trips: `inverse` succeeds on `A` with some `B`, succeeds on `B`, and
returns exactly `A` (hence `≈ A` within any tolerance). -/
theorem claim_C7 (n : ℕ) (A : Matrix (Fin n) (Fin n) ℚ) (h : A.det ≠ 0) :
    ∃ B C, inverse A = Except.ok B ∧ inverse B = Except.ok C ∧ C = A :=
  inverse_roundtrip A h

theorem claim_C7_witness :
    ((!![(2:ℚ),0;0,2]).det ≠ 0)
    ∧ (∃ B C, inverse !![(2:ℚ),0;0,2] = Except.ok B
        ∧ inverse B = Except.ok C ∧ C = !![(2:ℚ),0;0,2]) :=
  ⟨by norm_num [Matrix.det_fin_two_of],
   claim_C7 2 !![(2:ℚ),0;0,2] (by norm_num [Matrix.det_fin_two_of])⟩

/-- Claim C8: for every matrix, `rank(A)` equals the number of pivot
columns found by the RREF (Gauss-Jordan) procedure; the pivot count never
exceeds the column count, and a column whose selected pivot candidate is
negligible — judged by `isNegligible`, the same fixed tolerance test used
by `solve`/`inverse` — contributes no pivot (the elimination state is left
unchanged). -/
theorem claim_C8 :
    (∀ (m n : ℕ) (A : Matrix (Fin m) (Fin n) ℚ),
      rankOf m n A = ((rref m n A).2.2).length)
    ∧ (∀ (m n : ℕ) (A : Matrix (Fin m) (Fin n) ℚ), rankOf m n A ≤ n)
    ∧ (∀ (m n : ℕ) (st : Matrix (Fin m) (Fin n) ℚ × ℕ × List ℕ)
        (j : Fin n) (piv : Fin m),
        List.argmax (fun i => |st.1 i j|)
          ((List.finRange m).filter (fun i => decide (st.2.1 ≤ (i : ℕ))))
          = some piv →
        isNegligible (st.1 piv j) = true → rrefStep st j = st) :=
  ⟨fun _ _ _ => rfl, rankOf_le_cols,
   fun _ _ st j piv h1 h2 => rrefStep_pivot_test st j piv h1 h2⟩

/-- Claim C9: the build script resolves backend selection at build time:
it emits the dynamic-link directive for the external BLAS library exactly
when the `O3` cargo feature is set, and emits nothing otherwise. -/
theorem claim_C9 :
    buildScriptOutput true = ["cargo:rustc-link-lib=dylib=blas"]
    ∧ buildScriptOutput false = [] :=
  ⟨rfl, rfl⟩

/-- Claim C10: the `matrixmultiply` kernel crate is an unconditional
dependency, declared in every build configuration, whereas the `blas` and
`lapack` bindings are declared exactly when the `O3` feature is set. -/
theorem claim_C10 (f : CrateFeatures) :
    "matrixmultiply" ∈ linkedCrates f
    ∧ ("blas" ∈ linkedCrates f ↔ f.o3 = true)
    ∧ ("lapack" ∈ linkedCrates f ↔ f.o3 = true) := by
  obtain ⟨o3, plot, srd, nc⟩ := f
  cases o3 <;> cases plot <;> cases srd <;> cases nc <;>
    simp [linkedCrates]

end Peroxide
